import Mathlib

/-!
Verification of the libFirm x87 stack-simulator design and of the
high-level lowering pass (lower_highlevel.c).

The x87 simulator itself is only declared in the sources (x86_x87.h);
its definitions below are therefore modelled from the design document.
The lowering pass (lower_sel, lower_offset, lower_align, lower_size,
lower_irnode, lower_highlevel_graph) is embedded from the C source.
-/

namespace LibfirmVerif

/-! ## x87 stack state -/

/-- A virtual floating-point value identity (one per producing node). -/
abbrev VirtVal := Nat

/-- Modelled from the spec: a stack state is an ordered sequence of occupied
slots, each holding the identity of the resident virtual value.  The head of
the list is the top slot (slot 0); depth is the number of occupied slots. -/
abbrev X87State := List VirtVal

/-- Modelled from the spec: the depth of a stack state, the count of occupied
slots. -/
def depth (s : X87State) : Nat := s.length

/-- Modelled from the spec (the x87 simulator implementation is absent from
the sources; only the header x86_x87.h declares it): push a value on the x87
stack; depth += 1, new top slot := value.  Fails fatally (none) if depth is
already 8 (stack overflow). -/
def x86_x87_push (s : X87State) (v : VirtVal) : Option X87State :=
  if s.length < 8 then some (v :: s) else none

/-- Modelled from the spec: pop clears the top slot, depth -= 1.  Fails
fatally (none) if depth is already 0. -/
def pop (s : X87State) : Option X87State :=
  match s with
  | [] => none
  | _ :: rest => some rest

/-- Modelled from the spec: exchange logically swaps the given slot with the
top slot; it does not itself emit an instruction.  Exchanging the top slot
with itself, or an out-of-range slot, leaves the state unchanged. -/
def exchange (s : X87State) (k : Nat) : X87State :=
  match s with
  | [] => []
  | x :: rest =>
    if k = 0 then x :: rest
    else if k - 1 < rest.length then rest.getD (k - 1) 0 :: rest.set (k - 1) x
    else x :: rest

/-- Modelled from the spec: lookup returns the slot holding the value, or
none when the value is not resident.  The first occurrence (nearest the top)
is reported. -/
def lookup (s : X87State) (v : VirtVal) : Option Nat :=
  match s with
  | [] => none
  | x :: rest => if x = v then some 0 else (lookup rest v).map (· + 1)

/-- Modelled from the spec: direct slot assignment, used when a value is
known to already be materialized at a specific position. -/
def set_slot (s : X87State) (k : Nat) (v : VirtVal) : X87State := s.set k v

/-- A corrective / emitted real stack instruction: exchange slot k with top,
duplicate slot k onto the top, or pop the top slot. -/
inductive Fixup
| fxch (k : Nat)
| fdup (k : Nat)
| fpop
deriving DecidableEq

/-- Modelled from the spec: the effect of one corrective instruction on a
stack state.  A duplicate pushes a copy of slot k, an exchange swaps slot k
with the top, a pop discards the top slot. -/
def applyFixup (f : Fixup) (s : X87State) : X87State :=
  match f with
  | Fixup.fxch k => exchange s k
  | Fixup.fdup k => s.getD k 0 :: s
  | Fixup.fpop => s.tail

/-- Apply a corrective sequence left to right. -/
def applyFixups : List Fixup → X87State → X87State
  | [], s => s
  | f :: fs, s => applyFixups fs (applyFixup f s)

/-- Modelled from the spec: load brings a value to the top.  If the value is
resident but not at top, a real exchange is emitted and the state updated; if
it is already at top nothing happens; if it is not resident it is pushed
(it is freshly produced by the load node), fatally failing on overflow. -/
def x86_sim_x87_load (s : X87State) (v : VirtVal) :
    Option (List Fixup × X87State) :=
  match lookup s v with
  | some 0 => some ([], s)
  | some j => some ([Fixup.fxch j], exchange s j)
  | none => (x86_x87_push s v).map (fun s2 => ([], s2))

/-- Modelled from the spec: store emits a real store of the value at the
given operand position, optionally truncated to the given width; it does not
itself pop, so the state is unchanged. -/
def x86_sim_x87_store (s : X87State) (_valPos : Nat) (_storeBits : Nat) :
    X87State :=
  s

/-- Modelled from the spec: store followed by pop, freeing the slot. -/
def x86_sim_x87_store_pop (s : X87State) (valPos : Nat) : Option X87State :=
  pop (x86_sim_x87_store s valPos 80)

/-- The mandated residual stack depth at a return: the return value alone. -/
def mandatedReturnDepth : Nat := 1

/-- Modelled from the spec: finish_return ensures the mandated return
placement (depth 1, return value at top) before control leaves the function.
If the return value is not at the top, one exchange bringing it to the top is
emitted; then one pop per extra slot is emitted, each discarding the slot
below the top (a store-and-pop of the now-extra slot).  Fatal (none) when the
return value is not resident; on completion the residual depth always equals
the mandated depth. -/
def x86_sim_x87_ret (s : X87State) (v : VirtVal) :
    Option (List Fixup × X87State) :=
  match lookup s v with
  | none => none
  | some j =>
    let is1 := if j = 0 then [] else [Fixup.fxch j]
    some (is1 ++ List.replicate (s.length - 1) Fixup.fpop,
          (exchange s j).take 1)

/-! ## Join Reconciler -/

/-- Modelled from the spec: the corrective instructions fixing one target
slot.  j is the slot currently holding the required value, L the current
depth, and the target slot being fixed is the deepest not yet fixed one.  A
value required again by a shallower target slot is duplicated before being
consumed; a value already in the right slot needs no instruction; otherwise
exchanges bring it to the target position. -/
def fixOne (t : VirtVal) (ts : List VirtVal) (j L : Nat) : List Fixup :=
  if t ∈ ts then [Fixup.fdup j, Fixup.fxch L]
  else if j = L - 1 then []
  else if j = 0 then [Fixup.fxch (L - 1)]
  else [Fixup.fxch j, Fixup.fxch (L - 1)]

/-- Modelled from the spec: synthesize the corrective sequence transforming
the predecessor state cur into the canonical target layout, fixing target
slots from the deepest upward so that a fixed slot is never revisited.
targetRev lists the canonical layout deepest slot first.  A required value
absent from the predecessor state is a fatal internal consistency error
(none); after all target slots are satisfied, the remaining predecessor-only
resident values are popped. -/
def reconcileRev : List VirtVal → X87State → Option (List Fixup)
  | [], cur => some (List.replicate cur.length Fixup.fpop)
  | t :: ts, cur =>
    match lookup cur t with
    | none => none
    | some j =>
      match reconcileRev ts
          (applyFixups (fixOne t ts j cur.length) cur).dropLast with
      | none => none
      | some fs2 => some (fixOne t ts j cur.length ++ fs2)

/-- Modelled from the spec: the Join Reconciler, transforming a predecessor
exit state into the canonical entry state (listed top slot first). -/
def reconcile (canonical pred : X87State) : Option (List Fixup) :=
  reconcileRev canonical.reverse pred

/-- Sequence a list of fallible computations, failing if any fails. -/
def optionMapAll (f : α → Option β) : List α → Option (List β)
  | [] => some []
  | a :: l =>
    match f a, optionMapAll f l with
    | some b, some bs => some (b :: bs)
    | _, _ => none

/-- Modelled from the spec: the Driver entry-state computation.  The entry
block (no forward predecessor) starts from the empty state; a block with a
single forward predecessor reuses that predecessor's exit state unchanged
with no fixups; a block with multiple predecessors chooses the first
predecessor in stored edge order as canonical and reconciles every other
predecessor edge against it.  Returns the entry state together with one
corrective sequence per predecessor edge. -/
def computeEntry : List X87State → Option (X87State × List (List Fixup))
  | [] => some ([], [])
  | [p] => some (p, [[]])
  | p :: rest =>
    (optionMapAll (reconcile p) rest).map (fun fss => (p, [] :: fss))

/-! ## Operation Registry and Driver dispatch -/

/-- A simulate callback: given the current state and the node's payload,
return the updated state, or fail fatally. -/
abbrev SimFunc := X87State → Nat → Option X87State

/-- Modelled from the spec: register a simulator function for an instruction
kind; callable any number of times before simulation starts; the last
registration for a kind wins. -/
def x86_register_x87_sim (op : Nat) (f : SimFunc)
    (reg : List (Nat × SimFunc)) : List (Nat × SimFunc) :=
  (op, f) :: reg

/-- Look up the simulate callback registered for an instruction kind. -/
def lookupSim (reg : List (Nat × SimFunc)) (op : Nat) : Option SimFunc :=
  (reg.find? (fun e => e.1 == op)).map (fun e => e.2)

/-- A node as seen by the Driver: its instruction kind, whether it belongs to
the floating-point stack class, and its payload (the virtual value). -/
structure SimNode where
  op : Nat
  fpClass : Bool
  val : Nat

/-- Modelled from the spec: the Driver dispatching one node through the
Operation Registry.  A floating-point-class node whose kind has no registered
callback is a fatal internal error (none), never a silent skip; nodes outside
the floating-point class are not dispatched. -/
def dispatchNode (reg : List (Nat × SimFunc)) (s : X87State) (n : SimNode) :
    Option X87State :=
  if n.fpClass then
    match lookupSim reg n.op with
    | none => none
    | some f => f s n.val
  else some s

/-! ## Reachable simulation states -/

/-- Modelled from the spec: one simulator operation on a stack state (push,
pop, exchange, load, store, store-and-pop, finish-return, or a reconciliation
fixup).  The Bool index is true when explicit duplication (the reconciliation
duplicate fixup) is permitted; when it is false, every pushed value is
freshly produced, hence not yet resident (a virtual value occupies at most
one slot unless explicitly duplicated).  Reconciliation exchange and pop
fixups coincide with the exchange and pop operations. -/
inductive X87Step : Bool → X87State → X87State → Prop
| pushStep {d : Bool} {s s2 : X87State} {v : VirtVal} :
    (d = true ∨ ¬ v ∈ s) → x86_x87_push s v = some s2 → X87Step d s s2
| popStep {d : Bool} {s s2 : X87State} : pop s = some s2 → X87Step d s s2
| exchStep {d : Bool} {s : X87State} {k : Nat} : X87Step d s (exchange s k)
| loadStep {d : Bool} {s s2 : X87State} {v : VirtVal} {fs : List Fixup} :
    x86_sim_x87_load s v = some (fs, s2) → X87Step d s s2
| storeStep {d : Bool} {s : X87State} {p b : Nat} :
    X87Step d s (x86_sim_x87_store s p b)
| storePopStep {d : Bool} {s s2 : X87State} {p : Nat} :
    x86_sim_x87_store_pop s p = some s2 → X87Step d s s2
| retStep {d : Bool} {s s2 : X87State} {v : VirtVal} {fs : List Fixup} :
    x86_sim_x87_ret s v = some (fs, s2) → X87Step d s s2
| dupStep {s : X87State} {k : Nat} :
    k < s.length → s.length < 8 → X87Step true s (s.getD k 0 :: s)

/-- Modelled from the spec: simulation states reachable from the empty entry
state by any sequence of simulator operations. -/
inductive X87Reachable : Bool → X87State → Prop
| empty {d : Bool} : X87Reachable d []
| step {d : Bool} {s s2 : X87State} :
    X87Reachable d s → X87Step d s s2 → X87Reachable d s2

/-! ## High-level lowering pass (embedded from lower_highlevel.c) -/

/-- Node opcodes relevant to the lowering walker; all remaining opcodes are
collected in the Other constructor. -/
inductive Opcode
| Align
| Offset
| Sel
| Size
| Other (tag : Nat)
deriving DecidableEq

/-- The layout state of a type (get_type_state). -/
inductive TypeState
| layout_fixed
| layout_undefined
deriving DecidableEq

/-- The type information consulted by the lowering pass. -/
structure IrTypeInfo where
  state : TypeState
  sizeBytes : Nat
  alignBytes : Nat
  isPrimitive : Bool
  isArray : Bool
  mode : Nat

/-- The entity information consulted by the lowering pass. -/
structure IrEntity where
  owner : Nat
  typ : Nat
  offset : Int

/-- A node as seen by the lowering walker: its opcode, mode, pointer operand
(get_Sel_ptr), index operands (get_Sel_index), entity (get_Sel_entity /
get_Offset_entity) and type (get_Align_type / get_Size_type). -/
structure IrNode where
  opcode : Opcode
  mode : Nat
  ptrOp : Nat
  indexOps : List Nat
  entity : Nat
  typ : Nat

/-- The surrounding graph and type environment: type and entity tables, the
mode of operand nodes (get_irn_mode), mode sizes in bits
(get_mode_size_bits), the unsigned reference mode of equal size
(get_reference_mode_unsigned_eq) and mode_P_data. -/
structure LowerEnv where
  types : Nat → IrTypeInfo
  entities : Nat → IrEntity
  nodeMode : Nat → Nat
  modeSizeBits : Nat → Nat
  refModeUnsignedEq : Nat → Nat
  modePData : Nat

/-- A replacement expression built by the lowering pass: either an already
existing node (operand), or a newly created Const / Add / Mul / Conv node. -/
inductive IrExpr
| operand (id : Nat)
| constE (v : Int) (mode : Nat)
| addE (a b : IrExpr) (mode : Nat)
| mulE (a b : IrExpr) (mode : Nat)
| convE (a : IrExpr) (mode : Nat)
deriving DecidableEq

/-- The outcome of lowering one node: the node is left unchanged, exchanged
for a replacement expression, or the pass aborts (a failing assertion). -/
inductive LowerResult
| unchanged
| replacedBy (e : IrExpr)
| fatal
deriving DecidableEq

/-- Shallow embedding of lower_sel: rewrite a Sel node into address
arithmetic.  Sels whose entity's owner type has undecided layout are left
untouched; with index operands, an Add of the pointer and a scaled index is
built (the array case converts the index to the unsigned reference mode);
without indices the entity offset is added, and a zero offset reuses the
pointer operand directly. -/
def lower_sel (env : LowerEnv) (sel : IrNode) : LowerResult :=
  let ent := env.entities sel.entity
  let owner := env.types ent.owner
  if owner.state ≠ TypeState.layout_fixed then LowerResult.unchanged
  else if 0 < sel.indexOps.length then
    let basetyp := env.types ent.typ
    let basemode := if basetyp.isPrimitive then basetyp.mode else env.modePData
    if env.modeSizeBits basemode % 8 ≠ 0 then LowerResult.fatal
    else
      let index := sel.indexOps.getD 0 0
      if owner.isArray then
        if sel.indexOps.length ≠ 1 then LowerResult.fatal
        else
          let modeInt := env.refModeUnsignedEq sel.mode
          LowerResult.replacedBy (IrExpr.addE (IrExpr.operand sel.ptrOp)
            (IrExpr.mulE (IrExpr.convE (IrExpr.operand index) modeInt)
              (IrExpr.constE (Int.ofNat basetyp.sizeBytes) modeInt) modeInt)
            sel.mode)
      else
        let idxMode := env.nodeMode index
        LowerResult.replacedBy (IrExpr.addE (IrExpr.operand sel.ptrOp)
          (IrExpr.mulE (IrExpr.operand index)
            (IrExpr.constE (Int.ofNat (env.modeSizeBits basemode / 8)) idxMode)
            idxMode)
          sel.mode)
  else
    if (env.entities sel.entity).offset ≠ 0 then
      LowerResult.replacedBy (IrExpr.addE (IrExpr.operand sel.ptrOp)
        (IrExpr.constE ent.offset (env.refModeUnsignedEq sel.mode)) sel.mode)
    else LowerResult.replacedBy (IrExpr.operand sel.ptrOp)

/-- Shallow embedding of replace_by_Const: exchange the node for a Const of
the given value in the node's own mode. -/
def replace_by_Const (node : IrNode) (value : Int) : LowerResult :=
  LowerResult.replacedBy (IrExpr.constE value node.mode)

/-- Shallow embedding of lower_offset: rewrite an Offset node by a Const of
the entity's offset; the entity's type must have fixed layout (assertion). -/
def lower_offset (env : LowerEnv) (node : IrNode) : LowerResult :=
  let ent := env.entities node.entity
  if (env.types ent.typ).state ≠ TypeState.layout_fixed then LowerResult.fatal
  else replace_by_Const node ent.offset

/-- Shallow embedding of lower_align: rewrite an Align node by a Const of the
type's alignment in bytes; the type must have fixed layout (assertion). -/
def lower_align (env : LowerEnv) (node : IrNode) : LowerResult :=
  if (env.types node.typ).state ≠ TypeState.layout_fixed then LowerResult.fatal
  else replace_by_Const node (Int.ofNat (env.types node.typ).alignBytes)

/-- Shallow embedding of lower_size: rewrite a Size node by a Const of the
type's size in bytes; the type must have fixed layout (assertion). -/
def lower_size (env : LowerEnv) (node : IrNode) : LowerResult :=
  if (env.types node.typ).state ≠ TypeState.layout_fixed then LowerResult.fatal
  else replace_by_Const node (Int.ofNat (env.types node.typ).sizeBytes)

/-- Shallow embedding of lower_irnode, the walker callback: dispatch on the
opcode; every other opcode falls through to the default case and is left
unchanged. -/
def lower_irnode (env : LowerEnv) (n : IrNode) : LowerResult :=
  match n.opcode with
  | Opcode.Align => lower_align env n
  | Opcode.Offset => lower_offset env n
  | Opcode.Sel => lower_sel env n
  | Opcode.Size => lower_size env n
  | Opcode.Other _ => LowerResult.unchanged

/-- Shallow embedding of lower_highlevel_graph: walk all nodes of the graph
applying lower_irnode to each; the result records, per node, what the walker
did to it. -/
def lower_highlevel_graph (env : LowerEnv) (g : List IrNode) :
    List LowerResult :=
  g.map (lower_irnode env)

/-- The default node used with getD on graphs. -/
def defaultNode : IrNode :=
  { opcode := Opcode.Other 0, mode := 0, ptrOp := 0, indexOps := [],
    entity := 0, typ := 0 }

/-- A sample environment in which no type has fixed layout. -/
def sampleEnvUndef : LowerEnv :=
  LowerEnv.mk
    (fun _ => IrTypeInfo.mk TypeState.layout_undefined 0 0 false false 0)
    (fun _ => IrEntity.mk 0 0 0)
    (fun _ => 0) (fun _ => 32) (fun m => m) 0

/-- A sample environment in which every type has fixed layout. -/
def sampleEnvFixed : LowerEnv :=
  LowerEnv.mk
    (fun _ => IrTypeInfo.mk TypeState.layout_fixed 4 4 true false 1)
    (fun _ => IrEntity.mk 0 0 0)
    (fun _ => 2) (fun _ => 32) (fun m => m) 0

/-- The layout condition relevant to a node's opcode: the owner type of the
Sel entity, the type of the Offset entity, or the type of the Align / Size
node; vacuous for all other opcodes. -/
def relevantLayoutFixed (env : LowerEnv) (n : IrNode) : Prop :=
  match n.opcode with
  | Opcode.Sel =>
    (env.types (env.entities n.entity).owner).state = TypeState.layout_fixed
  | Opcode.Offset =>
    (env.types (env.entities n.entity).typ).state = TypeState.layout_fixed
  | Opcode.Align => (env.types n.typ).state = TypeState.layout_fixed
  | Opcode.Size => (env.types n.typ).state = TypeState.layout_fixed
  | Opcode.Other _ => True

/-! ## Basic list lemmas for the stack model -/

theorem getD_append_lt (l m : List Nat) (i : Nat) (h : i < l.length) :
    (l ++ m).getD i 0 = l.getD i 0 := by
  induction l generalizing i with
  | nil => simp at h
  | cons a t ih =>
    cases i with
    | zero => rfl
    | succ n =>
      simp only [List.cons_append, List.getD_cons_succ]
      exact ih n (by simpa using h)

theorem setMid (m : List Nat) (b x : Nat) (tl : List Nat) :
    (m ++ b :: tl).set m.length x = m ++ x :: tl := by
  induction m with
  | nil => rfl
  | cons a t ih => simp [List.set, ih]

theorem getDMid (m : List Nat) (b : Nat) (tl : List Nat) :
    (m ++ b :: tl).getD m.length 0 = b := by
  induction m with
  | nil => rfl
  | cons a t ih => simpa using ih

theorem exchange_cons (x : Nat) (rest : List Nat) (k : Nat) :
    exchange (x :: rest) k =
      if k = 0 then x :: rest
      else if k - 1 < rest.length then rest.getD (k - 1) 0 :: rest.set (k - 1) x
      else x :: rest := rfl

theorem exchange_shape (x b : Nat) (m tl : List Nat) :
    exchange (x :: m ++ b :: tl) (m.length + 1) = b :: m ++ x :: tl := by
  rw [List.cons_append, exchange_cons, if_neg (Nat.succ_ne_zero _),
    if_pos (by simp), Nat.add_sub_cancel, getDMid, setMid, List.cons_append]

theorem exchange_shape' (x b : Nat) (m tl : List Nat) (k : Nat)
    (hk : k = m.length + 1) :
    exchange (x :: (m ++ b :: tl)) k = b :: (m ++ x :: tl) := by
  subst hk
  exact exchange_shape x b m tl

theorem exchange_length (s : X87State) (k : Nat) :
    (exchange s k).length = s.length := by
  cases s with
  | nil => rfl
  | cons x rest =>
    simp only [exchange]
    split
    · rfl
    · split
      · simp
      · rfl

theorem applyFixups_append (fs1 fs2 : List Fixup) (s : X87State) :
    applyFixups (fs1 ++ fs2) s = applyFixups fs2 (applyFixups fs1 s) := by
  induction fs1 generalizing s with
  | nil => rfl
  | cons f fs ih => simp [applyFixups, ih]

theorem applyFixups_replicate_fpop (cur tl : List Nat) :
    applyFixups (List.replicate cur.length Fixup.fpop) (cur ++ tl) = tl := by
  induction cur with
  | nil => rfl
  | cons a t ih => simpa [applyFixups, applyFixup] using ih

theorem lookup_spec (s : X87State) (v : VirtVal) (j : Nat)
    (h : lookup s v = some j) : j < s.length ∧ s.getD j 0 = v := by
  induction s generalizing j with
  | nil => simp [lookup] at h
  | cons x rest ih =>
    by_cases hx : x = v
    · simp [lookup, hx] at h
      subst h
      simpa using hx
    · rw [lookup, if_neg hx] at h
      cases hrec : lookup rest v with
      | none => rw [hrec] at h; simp at h
      | some j0 =>
        rw [hrec] at h
        simp only [Option.map_some', Option.some.injEq] at h
        obtain ⟨h1, h2⟩ := ih j0 hrec
        subst h
        constructor
        · exact Nat.succ_lt_succ h1
        · exact h2

theorem lookup_none (s : X87State) (v : VirtVal) (h : lookup s v = none) :
    ¬ v ∈ s := by
  induction s with
  | nil => simp
  | cons x rest ih =>
    by_cases hx : x = v
    · simp [lookup, hx] at h
    · rw [lookup, if_neg hx] at h
      cases hrec : lookup rest v with
      | none => simp [ih hrec, Ne.symm hx]
      | some j0 => rw [hrec] at h; simp at h

theorem dropLast_getLastD (s : List Nat) (h : s ≠ []) :
    s = s.dropLast ++ [s.getLastD 0] := by
  induction s with
  | nil => exact absurd rfl h
  | cons a t ih =>
    cases t with
    | nil => rfl
    | cons b u =>
      have := ih (by simp)
      simpa [List.dropLast, List.getLastD] using this

theorem take_getD_drop (l : List Nat) (i : Nat) (h : i < l.length) :
    l = l.take i ++ l.getD i 0 :: l.drop (i + 1) := by
  induction l generalizing i with
  | nil => simp at h
  | cons a t ih =>
    cases i with
    | zero => simp
    | succ n =>
      exact congrArg (List.cons a) (ih n (Nat.lt_of_succ_lt_succ h))

theorem fixOne_shape (t : VirtVal) (ts : List VirtVal) (cur : X87State)
    (j : Nat) (h : lookup cur t = some j) :
    ∃ D : X87State, ∀ tl : List Nat,
      applyFixups (fixOne t ts j cur.length) (cur ++ tl) = D ++ t :: tl := by
  obtain ⟨hj, hget⟩ := lookup_spec cur t j h
  have hne : cur ≠ [] := by
    intro hc
    rw [hc] at hj
    simp at hj
  by_cases hdup : t ∈ ts
  · -- duplicate case: push a copy, then swap it to the bottom
    have hcur : cur = cur.dropLast ++ [cur.getLastD 0] := dropLast_getLastD cur hne
    have hL : cur.length = cur.dropLast.length + 1 := by
      conv_lhs => rw [hcur]
      simp
    refine ⟨cur.getLastD 0 :: cur.dropLast, fun tl => ?_⟩
    have hsplit : cur ++ tl = cur.dropLast ++ cur.getLastD 0 :: tl := by
      conv_lhs => rw [hcur]
      simp
    have hdget : (cur ++ tl).getD j 0 = t := by
      rw [getD_append_lt cur tl j hj, hget]
    simp only [fixOne, if_pos hdup, applyFixups, applyFixup]
    rw [hdget, hL, hsplit]
    exact exchange_shape t (cur.getLastD 0) cur.dropLast tl
  · by_cases hlast : j = cur.length - 1
    · -- value already in the target slot: no instruction
      have hcur : cur = cur.dropLast ++ [cur.getLastD 0] := dropLast_getLastD cur hne
      have hlen : cur.dropLast.length = cur.length - 1 := by simp
      have hbt : cur.getLastD 0 = t := by
        have h1 : (cur.dropLast ++ [cur.getLastD 0]).getD cur.dropLast.length 0
            = cur.getLastD 0 := getDMid _ _ []
        rw [← hcur, hlen, ← hlast, hget] at h1
        exact h1.symm
      refine ⟨cur.dropLast, fun tl => ?_⟩
      simp only [fixOne, if_neg hdup, if_pos hlast, applyFixups]
      conv_lhs => rw [hcur, hbt]
      simp
    · cases cur with
      | nil => exact absurd rfl hne
      | cons c0 rest =>
        have hrne : rest ≠ [] := by
          intro hr
          rw [hr] at hlast
          rw [hr] at hj
          simp at hj
          rw [hj] at hlast
          simp at hlast
        cases j with
        | zero =>
          -- value at the top: one exchange to the target slot
          have hc0 : c0 = t := by simpa using hget
          have hrest : rest = rest.dropLast ++ [rest.getLastD 0] :=
            dropLast_getLastD rest hrne
          have hL : (c0 :: rest).length - 1 = rest.dropLast.length + 1 := by
            conv_lhs => rw [List.length_cons, Nat.add_sub_cancel, hrest]
            simp
          refine ⟨rest.getLastD 0 :: rest.dropLast, fun tl => ?_⟩
          simp only [fixOne, if_neg hdup, if_neg hlast, if_pos rfl,
            applyFixups, applyFixup]
          have hsplit : (c0 :: rest) ++ tl
              = t :: (rest.dropLast ++ rest.getLastD 0 :: tl) := by
            rw [hc0]
            conv_lhs => rw [hrest]
            simp
          rw [hsplit, hL]
          exact exchange_shape t (rest.getLastD 0) rest.dropLast tl
        | succ j0 =>
          -- general case: bring the value to the top, then to the target slot
          have hj0 : j0 < rest.length := by simpa using Nat.lt_of_succ_lt_succ hj
          have hget0 : rest.getD j0 0 = t := hget
          have hsplit : rest = rest.take j0 ++ t :: rest.drop (j0 + 1) := by
            conv_lhs => rw [take_getD_drop rest j0 hj0]
            rw [hget0]
          have hm1 : (rest.take j0).length = j0 := by
            simp [Nat.min_eq_left (Nat.le_of_lt hj0)]
          have hm2ne : rest.drop (j0 + 1) ≠ [] := by
            intro hd
            have hdl : rest.length ≤ j0 + 1 := by
              simpa using List.drop_eq_nil_iff.mp hd
            have : j0 + 1 = rest.length := Nat.le_antisymm hj0 hdl
            rw [List.length_cons, Nat.add_sub_cancel] at hlast
            exact hlast this
          have hm2 : rest.drop (j0 + 1)
              = (rest.drop (j0 + 1)).dropLast
                ++ [(rest.drop (j0 + 1)).getLastD 0] :=
            dropLast_getLastD _ hm2ne
          refine ⟨(rest.drop (j0 + 1)).getLastD 0
            :: (rest.take j0 ++ c0 :: (rest.drop (j0 + 1)).dropLast),
            fun tl => ?_⟩
          simp only [fixOne, if_neg hdup, if_neg hlast,
            if_neg (Nat.succ_ne_zero j0), applyFixups, applyFixup]
          have he1 : exchange ((c0 :: rest) ++ tl) (j0 + 1)
              = t :: (rest.take j0 ++ c0 :: (rest.drop (j0 + 1) ++ tl)) := by
            have hst : (c0 :: rest) ++ tl
                = c0 :: (rest.take j0 ++ t :: (rest.drop (j0 + 1) ++ tl)) := by
              conv_lhs => rw [hsplit]
              simp
            rw [hst]
            exact exchange_shape' c0 t (rest.take j0) (rest.drop (j0 + 1) ++ tl)
              _ (by rw [hm1])
          rw [he1]
          have hst2 : t :: (rest.take j0 ++ c0 :: (rest.drop (j0 + 1) ++ tl))
              = t :: ((rest.take j0 ++ c0 :: (rest.drop (j0 + 1)).dropLast)
                ++ (rest.drop (j0 + 1)).getLastD 0 :: tl) := by
            conv_lhs => rw [hm2]
            simp
          rw [hst2]
          have hkL : (c0 :: rest).length - 1
              = (rest.take j0 ++ c0 :: (rest.drop (j0 + 1)).dropLast).length + 1 := by
            rw [List.length_cons, Nat.add_sub_cancel]
            conv_lhs => rw [hsplit]
            conv_lhs => rw [hm2]
            simp
            omega
          exact exchange_shape' t ((rest.drop (j0 + 1)).getLastD 0)
            (rest.take j0 ++ c0 :: (rest.drop (j0 + 1)).dropLast) tl _ hkL

theorem reconcileRev_correct (ts : List VirtVal) :
    ∀ (cur : X87State) (fs : List Fixup), reconcileRev ts cur = some fs →
      ∀ tl, applyFixups fs (cur ++ tl) = ts.reverse ++ tl := by
  induction ts with
  | nil =>
    intro cur fs h tl
    simp only [reconcileRev, Option.some.injEq] at h
    subst h
    simpa using applyFixups_replicate_fpop cur tl
  | cons t ts ih =>
    intro cur fs h tl
    rw [reconcileRev] at h
    split at h
    · exact absurd h (by simp)
    · rename_i j hl
      split at h
      · exact absurd h (by simp)
      · rename_i fs2 hrec
        simp only [Option.some.injEq] at h
        subst h
        obtain ⟨D, hD⟩ := fixOne_shape t ts cur j hl
        have h0 : applyFixups (fixOne t ts j cur.length) cur = D ++ [t] := by
          simpa using hD []
        have hdrop :
            (applyFixups (fixOne t ts j cur.length) cur).dropLast = D := by
          rw [h0]
          simp
        rw [hdrop] at hrec
        rw [applyFixups_append, hD tl, ih D fs2 hrec (t :: tl)]
        simp

theorem reconcile_correct (c p : X87State) (fs : List Fixup)
    (h : reconcile c p = some fs) : applyFixups fs p = c := by
  have h2 := reconcileRev_correct c.reverse p fs h []
  simpa using h2

theorem optionMapAll_spec (f : α → Option β) (l : List α) (ys : List β)
    (h : optionMapAll f l = some ys) (d : α) (e : β) :
    ys.length = l.length ∧
      ∀ i, i < l.length → f (l.getD i d) = some (ys.getD i e) := by
  induction l generalizing ys with
  | nil =>
    simp only [optionMapAll, Option.some.injEq] at h
    subst h
    simp
  | cons a t ih =>
    rw [optionMapAll] at h
    split at h
    · rename_i b bs ha hrec
      simp only [Option.some.injEq] at h
      subst h
      obtain ⟨hlen, hall⟩ := ih bs hrec
      refine ⟨by simpa using hlen, ?_⟩
      intro i hi
      cases i with
      | zero => simpa using ha
      | succ n => simpa using hall n (Nat.lt_of_succ_lt_succ hi)
    · exact absurd h (by simp)

/-! ## More slot-algebra lemmas -/

theorem exchange_zero (s : X87State) : exchange s 0 = s := by
  cases s with
  | nil => rfl
  | cons x rest => simp [exchange]

theorem getD_set_self (l : List Nat) (i : Nat) (a : Nat) (h : i < l.length) :
    (l.set i a).getD i 0 = a := by
  induction l generalizing i with
  | nil => simp at h
  | cons x rest ih =>
    cases i with
    | zero => rfl
    | succ n => exact ih n (Nat.lt_of_succ_lt_succ h)

theorem getD_set_ne (l : List Nat) (i j : Nat) (a : Nat) (h : i ≠ j) :
    (l.set j a).getD i 0 = l.getD i 0 := by
  induction l generalizing i j with
  | nil => rfl
  | cons x rest ih =>
    cases j with
    | zero =>
      cases i with
      | zero => exact absurd rfl h
      | succ m => rfl
    | succ n =>
      cases i with
      | zero => rfl
      | succ m =>
        exact ih m n (fun he => h (congrArg Nat.succ he))

theorem getD_mem_self (l : List Nat) (i : Nat) (h : i < l.length) :
    l.getD i 0 ∈ l := by
  induction l generalizing i with
  | nil => simp at h
  | cons x rest ih =>
    cases i with
    | zero => simp
    | succ n =>
      exact List.mem_cons_of_mem x (ih n (Nat.lt_of_succ_lt_succ h))

theorem lookup_of (s : X87State) (v : VirtVal) (j : Nat) (hj : j < s.length)
    (hget : s.getD j 0 = v) (hbefore : ∀ i, i < j → s.getD i 0 ≠ v) :
    lookup s v = some j := by
  induction s generalizing j with
  | nil => simp at hj
  | cons x rest ih =>
    cases j with
    | zero =>
      simp only [List.getD_cons_zero] at hget
      simp [lookup, hget]
    | succ n =>
      have hx : x ≠ v := by
        have h0 := hbefore 0 (Nat.succ_pos n)
        simpa using h0
      rw [lookup, if_neg hx]
      have hr : lookup rest v = some n := by
        refine ih n (Nat.lt_of_succ_lt_succ hj) hget (fun i hi => ?_)
        have hb := hbefore (i + 1) (Nat.succ_lt_succ hi)
        simpa using hb
      rw [hr]
      rfl

theorem swap_perm (l : List Nat) (i : Nat) (h : i < l.length) (a : Nat) :
    List.Perm (l.getD i 0 :: l.set i a) (a :: l) := by
  induction l generalizing i with
  | nil => simp at h
  | cons x rest ih =>
    cases i with
    | zero => exact List.Perm.swap a x rest
    | succ n =>
      have ihn := ih n (Nat.lt_of_succ_lt_succ h)
      exact List.Perm.trans (List.Perm.swap x (rest.getD n 0) (rest.set n a))
        (List.Perm.trans (List.Perm.cons x ihn) (List.Perm.swap a x rest))

theorem exchange_perm (s : X87State) (k : Nat) :
    List.Perm (exchange s k) s := by
  cases s with
  | nil => exact List.Perm.refl _
  | cons x rest =>
    rw [exchange_cons]
    split
    · exact List.Perm.refl _
    · split
      · next hk => exact swap_perm rest (k - 1) hk x
      · exact List.Perm.refl _

theorem exchange_getD_zero (s : X87State) (j : Nat) (hj : j < s.length) :
    (exchange s j).getD 0 0 = s.getD j 0 := by
  cases s with
  | nil => simp at hj
  | cons x rest =>
    cases j with
    | zero => rw [exchange_zero]
    | succ n =>
      rw [exchange_cons, if_neg (Nat.succ_ne_zero n),
        if_pos (by simpa using Nat.lt_of_succ_lt_succ hj)]
      simp

theorem take_one_getD (l : List Nat) (h : 0 < l.length) :
    l.take 1 = [l.getD 0 0] := by
  cases l with
  | nil => simp at h
  | cons x rest => rfl

theorem push_some (s : X87State) (v : VirtVal) (s2 : X87State)
    (h : x86_x87_push s v = some s2) : s.length < 8 ∧ s2 = v :: s := by
  unfold x86_x87_push at h
  split at h
  · next hlt => exact ⟨hlt, (Option.some.inj h).symm⟩
  · simp at h

theorem pop_some (s : X87State) (s2 : X87State) (h : pop s = some s2) :
    s.length = s2.length + 1 ∧ s = s.getD 0 0 :: s2 := by
  cases s with
  | nil => simp [pop] at h
  | cons x rest =>
    have h2 : rest = s2 := Option.some.inj h
    subst h2
    simp

theorem load_some (s : X87State) (v : VirtVal) (fs : List Fixup)
    (s2 : X87State) (h : x86_sim_x87_load s v = some (fs, s2)) :
    s2 = s ∨ (∃ j, s2 = exchange s j) ∨
      (¬ v ∈ s ∧ s.length < 8 ∧ s2 = v :: s) := by
  unfold x86_sim_x87_load at h
  split at h
  · exact Or.inl (congrArg Prod.snd (Option.some.inj h)).symm
  · next j _ _ =>
    exact Or.inr (Or.inl ⟨j, (congrArg Prod.snd (Option.some.inj h)).symm⟩)
  · next hnone =>
    cases hp : x86_x87_push s v with
    | none => rw [hp] at h; simp at h
    | some s3 =>
      rw [hp] at h
      obtain ⟨hlt, hs3⟩ := push_some s v s3 hp
      have h2 : s3 = s2 := congrArg Prod.snd (Option.some.inj h)
      exact Or.inr (Or.inr ⟨lookup_none s v hnone, hlt, by rw [← h2, hs3]⟩)

theorem ret_some (s : X87State) (v : VirtVal) (fs : List Fixup)
    (s2 : X87State) (h : x86_sim_x87_ret s v = some (fs, s2)) :
    ∃ j, lookup s v = some j ∧ s2 = (exchange s j).take 1 := by
  unfold x86_sim_x87_ret at h
  split at h
  · simp at h
  · next j hl =>
    exact ⟨j, hl, (congrArg Prod.snd (Option.some.inj h)).symm⟩

theorem step_length_le (d : Bool) (s s2 : X87State) (h : X87Step d s s2)
    (hs : s.length ≤ 8) : s2.length ≤ 8 := by
  cases h with
  | pushStep hfresh hp =>
    obtain ⟨hlt, hs2⟩ := push_some _ _ _ hp
    rw [hs2]
    simp only [List.length_cons]
    omega
  | popStep hp =>
    obtain ⟨hlen, _⟩ := pop_some _ _ hp
    omega
  | exchStep => rw [exchange_length]; exact hs
  | loadStep hl =>
    rcases load_some _ _ _ _ hl with h1 | ⟨j, h1⟩ | ⟨_, hlt, h1⟩
    · rw [h1]; exact hs
    · rw [h1, exchange_length]; exact hs
    · rw [h1]
      simp only [List.length_cons]
      omega
  | storeStep => exact hs
  | storePopStep hp =>
    obtain ⟨hlen, _⟩ := pop_some _ _ hp
    simp only [x86_sim_x87_store] at hlen
    omega
  | retStep hr =>
    obtain ⟨j, _, h1⟩ := ret_some _ _ _ _ hr
    rw [h1]
    have h2 : ((exchange s j).take 1).length ≤ 1 :=
      List.length_take_le 1 (exchange s j)
    omega
  | dupStep hk hlt =>
    simp only [List.length_cons]
    omega

theorem step_nodup (s s2 : X87State) (h : X87Step false s s2)
    (hn : s.Nodup) : s2.Nodup := by
  cases h with
  | pushStep hfresh hp =>
    obtain ⟨_, hs2⟩ := push_some _ _ _ hp
    rw [hs2]
    rcases hfresh with hd | hv
    · simp at hd
    · exact List.nodup_cons.mpr ⟨hv, hn⟩
  | popStep hp =>
    obtain ⟨_, hcons⟩ := pop_some _ _ hp
    rw [hcons] at hn
    exact (List.nodup_cons.mp hn).2
  | exchStep => exact ((exchange_perm s _).nodup_iff).mpr hn
  | loadStep hl =>
    rcases load_some _ _ _ _ hl with h1 | ⟨j, h1⟩ | ⟨hv, _, h1⟩
    · rw [h1]; exact hn
    · rw [h1]; exact ((exchange_perm s j).nodup_iff).mpr hn
    · rw [h1]; exact List.nodup_cons.mpr ⟨hv, hn⟩
  | storeStep => exact hn
  | storePopStep hp =>
    obtain ⟨_, hcons⟩ := pop_some _ _ hp
    simp only [x86_sim_x87_store] at hcons
    rw [hcons] at hn
    exact (List.nodup_cons.mp hn).2
  | retStep hr =>
    obtain ⟨j, _, h1⟩ := ret_some _ _ _ _ hr
    rw [h1]
    cases hx : exchange s j with
    | nil => simp
    | cons y rest => simp

theorem lookup_exchange_top (s : X87State) (k : Nat) (hn : s.Nodup)
    (hk : k < s.length) :
    lookup (exchange s k) (s.getD 0 0) = some k := by
  cases s with
  | nil => simp at hk
  | cons x rest =>
    cases k with
    | zero =>
      rw [exchange_zero]
      simp [lookup]
    | succ n =>
      have hn2 : n < rest.length := Nat.lt_of_succ_lt_succ hk
      rw [exchange_cons, if_neg (Nat.succ_ne_zero n),
        if_pos (by simpa using hn2)]
      obtain ⟨hxnot, hrestnd⟩ := List.nodup_cons.mp hn
      simp only [List.getD_cons_zero]
      refine lookup_of _ x (n + 1) ?_ ?_ ?_
      · simp only [List.length_cons, List.length_set]
        omega
      · show (rest.set n x).getD n 0 = x
        exact getD_set_self rest n x hn2
      · intro i hi
        cases i with
        | zero =>
          show ¬ rest.getD n 0 = x
          intro he
          exact hxnot (he ▸ getD_mem_self rest n hn2)
        | succ m =>
          have hm : m < n := Nat.lt_of_succ_lt_succ hi
          show ¬ (rest.set n x).getD m 0 = x
          rw [getD_set_ne rest m n x (Nat.ne_of_lt hm)]
          intro he
          exact hxnot (he ▸ getD_mem_self rest m (Nat.lt_trans hm hn2))

theorem lookup_exchange_bottom (s : X87State) (k : Nat) (hk : k < s.length) :
    lookup (exchange s k) (s.getD k 0) = some 0 := by
  cases s with
  | nil => simp at hk
  | cons x rest =>
    cases k with
    | zero =>
      rw [exchange_zero]
      simp [lookup]
    | succ n =>
      have hn2 : n < rest.length := Nat.lt_of_succ_lt_succ hk
      rw [exchange_cons, if_neg (Nat.succ_ne_zero n),
        if_pos (by simpa using hn2)]
      show lookup (rest.getD n 0 :: rest.set n x) (rest.getD n 0) = some 0
      simp [lookup]

theorem getD_map_lower (env : LowerEnv) (g : List IrNode) (i : Nat)
    (hi : i < g.length) :
    (lower_highlevel_graph env g).getD i LowerResult.unchanged
      = lower_irnode env (g.getD i defaultNode) := by
  induction g generalizing i with
  | nil => simp at hi
  | cons a t ih =>
    cases i with
    | zero => rfl
    | succ m => exact ih m (Nat.lt_of_succ_lt_succ hi)

/-! ## The claims -/

/-- C1: for every simulation state reachable by any sequence of simulator
operations (push, pop, exchange, load, store, store-and-pop, finish-return,
reconciliation fixups) from the empty entry state, the stack depth satisfies
0 ≤ depth ≤ 8; and along sequences without explicit duplication every
virtual value occupies at most one slot (the state has no duplicates). -/
theorem C1_depth_invariant (d : Bool) (s : X87State) (h : X87Reachable d s) :
    (0 ≤ depth s ∧ depth s ≤ 8) ∧ (d = false → s.Nodup) := by
  induction h with
  | empty => exact ⟨⟨Nat.zero_le _, by simp [depth]⟩, by simp⟩
  | step hr hstep ih =>
    refine ⟨⟨Nat.zero_le _, step_length_le _ _ _ hstep ih.1.2⟩, fun hd => ?_⟩
    subst hd
    exact step_nodup _ _ hstep (ih.2 rfl)

theorem C1_depth_invariant_witness :
    (0 ≤ depth [3] ∧ depth [3] ≤ 8) ∧ (false = false → List.Nodup [3]) :=
  C1_depth_invariant false [3]
    (X87Reachable.step X87Reachable.empty
      (@X87Step.pushStep false [] [3] 3 (Or.inr (by simp)) (by decide)))

/-- C2: for every multi-predecessor block, applying the corrective
instruction sequence the Join Reconciler synthesizes on a predecessor edge
to that predecessor's exit state yields a state equal to the chosen
canonical entry state exactly — same depth and same slot contents. -/
theorem C2_reconciliation_correct (preds : List X87State) (c : X87State)
    (fss : List (List Fixup)) (hm : 2 ≤ preds.length)
    (h : computeEntry preds = some (c, fss)) :
    ∀ i, i < preds.length →
      applyFixups (fss.getD i []) (preds.getD i []) = c := by
  cases preds with
  | nil => simp at hm
  | cons p rest =>
    cases rest with
    | nil => simp at hm
    | cons q rest2 =>
      have h2 : (optionMapAll (reconcile p) (q :: rest2)).map
          (fun fss2 => (p, [] :: fss2)) = some (c, fss) := h
      cases hma : optionMapAll (reconcile p) (q :: rest2) with
      | none => rw [hma] at h2; simp at h2
      | some fss2 =>
        rw [hma] at h2
        simp only [Option.map_some', Option.some.injEq, Prod.mk.injEq] at h2
        obtain ⟨rfl, rfl⟩ := h2
        intro i hi
        cases i with
        | zero => rfl
        | succ m =>
          obtain ⟨hlen, hall⟩ :=
            optionMapAll_spec (reconcile p) (q :: rest2) fss2 hma [] []
          have hm2 : m < (q :: rest2).length := Nat.lt_of_succ_lt_succ hi
          have hrc := reconcile_correct p ((q :: rest2).getD m [])
            (fss2.getD m []) (hall m hm2)
          simpa using hrc

theorem C2_reconciliation_correct_witness :
    applyFixups ([[], [Fixup.fxch 1]].getD 1 [])
        ([[1, 0], [0, 1]].getD 1 []) = [1, 0] :=
  C2_reconciliation_correct [[1, 0], [0, 1]] [1, 0] [[], [Fixup.fxch 1]]
    (by decide) (by decide) 1 (by decide)

/-- C3: for every state with depth 8, push fails fatally (stack overflow,
an internal error); for every state with depth below 8, push increments the
depth by one and places the value in the new top slot. -/
theorem C3_push_overflow (s : X87State) (v : VirtVal) :
    (depth s = 8 → x86_x87_push s v = none) ∧
    (depth s < 8 →
      x86_x87_push s v = some (v :: s) ∧ depth (v :: s) = depth s + 1 ∧
        (v :: s).getD 0 0 = v) := by
  constructor
  · intro h8
    simp only [depth] at h8
    unfold x86_x87_push
    rw [if_neg (by omega)]
  · intro hlt
    simp only [depth] at hlt
    refine ⟨?_, rfl, rfl⟩
    unfold x86_x87_push
    rw [if_pos hlt]

theorem C3_push_overflow_witness :
    x86_x87_push [0, 1, 2, 3, 4, 5, 6, 7] 9 = none ∧
      x86_x87_push [1] 9 = some [9, 1] :=
  ⟨(C3_push_overflow [0, 1, 2, 3, 4, 5, 6, 7] 9).1 (by decide),
   ((C3_push_overflow [1] 9).2 (by decide)).1⟩

/-- C4: whenever finish-return completes, the residual depth equals the
mandated return depth with the return value at the mandated top position
(any other residual depth is a fatal error, i.e. no completion); in
particular on the state with v1 below the top, v2 on top and v1 mandated,
it emits exactly one exchange followed by exactly one pop and ends at depth
1 with v1 on top. -/
theorem C4_finish_return :
    (∀ (s : X87State) (v : VirtVal) (is : List Fixup) (s2 : X87State),
        x86_sim_x87_ret s v = some (is, s2) →
          depth s2 = mandatedReturnDepth ∧ s2.getD 0 0 = v) ∧
      x86_sim_x87_ret [2, 1] 1 = some ([Fixup.fxch 1, Fixup.fpop], [1]) := by
  constructor
  · intro s v is s2 h
    obtain ⟨j, hl, h1⟩ := ret_some s v is s2 h
    obtain ⟨hj, hget⟩ := lookup_spec s v j hl
    have hpos : 0 < (exchange s j).length := by
      rw [exchange_length]
      omega
    rw [h1, take_one_getD _ hpos, exchange_getD_zero s j hj, hget]
    exact ⟨rfl, rfl⟩
  · decide

theorem C4_finish_return_witness :
    depth [1] = mandatedReturnDepth ∧ List.getD [1] 0 0 = 1 :=
  C4_finish_return.1 [2, 1] 1 [Fixup.fxch 1, Fixup.fpop] [1]
    C4_finish_return.2

/-- C5: a floating-point-class node whose instruction kind has no simulate
callback registered in the Operation Registry triggers a fatal abort in the
Driver dispatch; it is never silently skipped. -/
theorem C5_unregistered_fatal (reg : List (Nat × SimFunc)) (s : X87State)
    (n : SimNode) (hfp : n.fpClass = true)
    (hnone : lookupSim reg n.op = none) :
    dispatchNode reg s n = none := by
  unfold dispatchNode
  rw [if_pos hfp, hnone]

theorem C5_unregistered_fatal_witness :
    dispatchNode [] [] { op := 0, fpClass := true, val := 0 } = none :=
  C5_unregistered_fatal [] [] { op := 0, fpClass := true, val := 0 } rfl rfl

/-- C6: a block with exactly one forward predecessor reuses that
predecessor's exit state unchanged as its entry state, and no corrective
instructions are emitted on the connecting edge. -/
theorem C6_single_pred (p : X87State) : computeEntry [p] = some (p, [[]]) :=
  rfl

/-- C7: slot-algebra round trip: lookup after push returns the top slot;
after exchanging slot k with the top, the former top value is found at
slot k and the former slot-k value at the top; exchanging the top slot with
itself leaves the state unchanged. -/
theorem C7_slot_algebra :
    (∀ (s : X87State) (v : VirtVal) (s2 : X87State),
        x86_x87_push s v = some s2 → lookup s2 v = some 0) ∧
      (∀ (s : X87State) (k : Nat), s.Nodup → k < s.length →
        lookup (exchange s k) (s.getD 0 0) = some k ∧
          lookup (exchange s k) (s.getD k 0) = some 0) ∧
      ∀ s : X87State, exchange s 0 = s := by
  refine ⟨?_, ?_, exchange_zero⟩
  · intro s v s2 h
    obtain ⟨_, hs2⟩ := push_some s v s2 h
    subst hs2
    simp [lookup]
  · intro s k hn hk
    exact ⟨lookup_exchange_top s k hn hk, lookup_exchange_bottom s k hk⟩

theorem C7_slot_algebra_witness :
    lookup [9, 5] 9 = some 0 ∧
      (lookup (exchange [7, 8] 1) 7 = some 1 ∧
        lookup (exchange [7, 8] 1) 8 = some 0) ∧
      exchange [4, 6] 0 = [4, 6] :=
  ⟨C7_slot_algebra.1 [5] 9 [9, 5] (by decide),
   C7_slot_algebra.2.1 [7, 8] 1 (by decide) (by decide),
   C7_slot_algebra.2.2 [4, 6]⟩

/-- C8: the lowering pass rewrites a node into arithmetic or a constant only
when the layout of the relevant type is fixed; in particular a Sel node
whose entity's owner type does not have fixed layout is left unchanged. -/
theorem C8_layout_guard (env : LowerEnv) (n : IrNode) :
    (∀ e, lower_irnode env n = LowerResult.replacedBy e →
      relevantLayoutFixed env n) ∧
    (n.opcode = Opcode.Sel →
      (env.types (env.entities n.entity).owner).state ≠
          TypeState.layout_fixed →
        lower_irnode env n = LowerResult.unchanged) := by
  obtain ⟨op, mo, pt, ix, en, ty⟩ := n
  constructor
  · intro e h
    cases op with
    | Align =>
      simp only [lower_irnode, lower_align] at h
      simp only [relevantLayoutFixed]
      split at h
      · simp at h
      · next hcond => exact not_not.mp hcond
    | Offset =>
      simp only [lower_irnode, lower_offset] at h
      simp only [relevantLayoutFixed]
      split at h
      · simp at h
      · next hcond => exact not_not.mp hcond
    | Size =>
      simp only [lower_irnode, lower_size] at h
      simp only [relevantLayoutFixed]
      split at h
      · simp at h
      · next hcond => exact not_not.mp hcond
    | Sel =>
      simp only [lower_irnode, lower_sel] at h
      simp only [relevantLayoutFixed]
      split at h
      · simp at h
      · next hcond => exact not_not.mp hcond
    | Other t => exact trivial
  · intro _ hnot
    cases op with
    | Sel => simp [lower_irnode, lower_sel, hnot]
    | Align => simp at *
    | Offset => simp at *
    | Size => simp at *
    | Other t => rfl

theorem C8_layout_guard_witness :
    lower_irnode sampleEnvUndef
      { opcode := Opcode.Sel, mode := 0, ptrOp := 7, indexOps := [],
        entity := 0, typ := 0 } = LowerResult.unchanged :=
  (C8_layout_guard sampleEnvUndef
    { opcode := Opcode.Sel, mode := 0, ptrOp := 7, indexOps := [],
      entity := 0, typ := 0 }).2 rfl (by decide)

/-- C9: the lowering walker leaves every node whose opcode is not Align,
Offset, Sel or Size unchanged, both per node and across a whole graph
walk. -/
theorem C9_frame_effect (env : LowerEnv) (n : IrNode)
    (h : ¬ n.opcode ∈ [Opcode.Align, Opcode.Offset, Opcode.Sel, Opcode.Size]) :
    lower_irnode env n = LowerResult.unchanged ∧
      ∀ (g : List IrNode) (i : Nat), g.getD i defaultNode = n →
        (lower_highlevel_graph env g).getD i LowerResult.unchanged
          = LowerResult.unchanged := by
  have h1 : lower_irnode env n = LowerResult.unchanged := by
    obtain ⟨op, mo, pt, ix, en, ty⟩ := n
    cases op with
    | Other t => rfl
    | Align => simp at h
    | Offset => simp at h
    | Sel => simp at h
    | Size => simp at h
  refine ⟨h1, fun g i hgi => ?_⟩
  by_cases hi : i < g.length
  · rw [getD_map_lower env g i hi, hgi, h1]
  · have hlen : (lower_highlevel_graph env g).length = g.length := by
      simp [lower_highlevel_graph]
    rw [List.getD_eq_default]
    omega

theorem C9_frame_effect_witness :
    lower_irnode sampleEnvFixed defaultNode = LowerResult.unchanged ∧
      (lower_highlevel_graph sampleEnvFixed [defaultNode]).getD 0
        LowerResult.unchanged = LowerResult.unchanged := by
  have h := C9_frame_effect sampleEnvFixed defaultNode (by decide)
  exact ⟨h.1, h.2 [defaultNode] 0 rfl⟩

/-- C10: a Sel node with no index operands whose entity has offset 0 and
whose owner type has fixed layout is replaced by its pointer operand
directly, creating no new Add or Const node. -/
theorem C10_sel_zero_offset (env : LowerEnv) (n : IrNode)
    (hop : n.opcode = Opcode.Sel) (hidx : n.indexOps = [])
    (hoff : (env.entities n.entity).offset = 0)
    (hfix : (env.types (env.entities n.entity).owner).state
      = TypeState.layout_fixed) :
    lower_irnode env n = LowerResult.replacedBy (IrExpr.operand n.ptrOp) := by
  obtain ⟨op, mo, pt, ix, en, ty⟩ := n
  simp only at hop hidx hoff hfix
  subst hop hidx
  simp [lower_irnode, lower_sel, hoff, hfix]

theorem C10_sel_zero_offset_witness :
    lower_irnode sampleEnvFixed
      { opcode := Opcode.Sel, mode := 0, ptrOp := 9, indexOps := [],
        entity := 0, typ := 0 }
      = LowerResult.replacedBy (IrExpr.operand 9) :=
  C10_sel_zero_offset sampleEnvFixed
    { opcode := Opcode.Sel, mode := 0, ptrOp := 9, indexOps := [],
      entity := 0, typ := 0 } rfl rfl (by decide) (by decide)

end LibfirmVerif
